import Mathlib

/-!
Verification of the solresol codec (`libsolresol.py`) against its
natural-language specification.

The embedding models:
* `SolfegeSymbol` (the 7-variant enum) as the inductive `SolSym`, with its
  numeric values, alias lookup tables, phonetic consonant/vowel forms and
  canonical spellings;
* `SolresolWord.__init__` for each syntax (`full`, `ses`, `num`, packed
  integer) as `fullParse`, `sesParse`, `numParse`, `wordFromInt`;
* `SolresolWord.value` as `wordValue`, `SolresolWord.ses` as `sesStr`,
  `SolresolWord.fulltext` as `fulltextChars`;
* `Solresol.value` (phrase-level packed encoding) as `phraseValue` and
  `Solresol.__init__` on an integer (phrase-level packed decoding) as
  `phraseFromInt`.

Python strings are modelled as `List Char`; octal digit strings as
`List Nat` (one entry per digit, most significant first).  Fallible
constructors (Python exceptions) are modelled with `Option`.
-/

/-- The seven solfège symbols (`SolfegeSymbol` in the source). -/
inductive SolSym
  | DO | RE | MI | FA | SOL | LA | SI
deriving DecidableEq

open SolSym

/-- `SolfegeSymbol.value`: the canonical ordinal 1..7. -/
def symVal : SolSym → Nat
  | DO => 1 | RE => 2 | MI => 3 | FA => 4 | SOL => 5 | LA => 6 | SI => 7

/-- `SolfegeSymbol(i)`: value lookup, failing outside 1..7
    (Python raises `ValueError`). -/
def symFromValue : Nat → Option SolSym
  | 1 => some DO | 2 => some RE | 3 => some MI | 4 => some FA
  | 5 => some SOL | 6 => some LA | 7 => some SI | _ => none

/-- `SolfegeSymbol[s]` for a single-character name: the 1-character
    aliases registered in the enum. -/
def look1 : Char → Option SolSym
  | 'D' => some DO | 'd' => some DO | 'p' => some DO | 'o' => some DO
  | 'R' => some RE | 'r' => some RE | 'k' => some RE | 'e' => some RE
  | 'M' => some MI | 'm' => some MI | 'i' => some MI
  | 'F' => some FA | 'f' => some FA | 'a' => some FA
  | 'S' => some SOL | 's' => some SOL | 'u' => some SOL
  | 'L' => some LA | 'l' => some LA
  | 'T' => some SI | 't' => some SI
  | _ => none

/-- `SolfegeSymbol[s]` for a two-character name: the 2-character aliases
    registered in the enum (the 3-character names `SOL`/`Sol`/`sol` are
    never presented to this lookup by the scanner, which slices at most
    2 characters). -/
def look2 : Char → Char → Option SolSym
  | 'D', 'O' => some DO | 'D', 'o' => some DO | 'd', 'o' => some DO
  | 'R', 'E' => some RE | 'R', 'e' => some RE | 'r', 'e' => some RE
  | 'M', 'I' => some MI | 'M', 'i' => some MI | 'm', 'i' => some MI
  | 'F', 'A' => some FA | 'F', 'a' => some FA | 'f', 'a' => some FA
  | 'S', 'o' => some SOL | 's', 'o' => some SOL
  | 'L', 'A' => some LA | 'L', 'a' => some LA | 'l', 'a' => some LA
  | 'a', 'u' => some LA
  | 'S', 'I' => some SI | 'S', 'i' => some SI | 's', 'i' => some SI
  | 'T', 'I' => some SI | 'T', 'i' => some SI | 't', 'i' => some SI
  | 'a', 'i' => some SI
  | _, _ => none

/-- `SolfegeSymbol[slice]` where the slice (`word[:2]`) has length 1 or 2. -/
def lookupFull : List Char → Option SolSym
  | [c] => look1 c
  | [c1, c2] => look2 c1 c2
  | _ => none

/-- ASCII lowercasing, modelling Python `str.lower` on the alphabet the
    scanner inspects. -/
def lc (c : Char) : Char :=
  if 'A' ≤ c ∧ c ≤ 'Z' then Char.ofNat (c.toNat + 32) else c

/-- Map a list of elements through a fallible function, failing if any
    element fails (models a Python list comprehension that can raise). -/
def mapOpt (f : α → Option β) : List α → Option (List β)
  | [] => some []
  | a :: l =>
    match f a, mapOpt f l with
    | some b, some bs => some (b :: bs)
    | _, _ => none

/-- Read a most-significant-first octal digit list as a number:
    `int(s, 8)` on a non-empty digit string (on `[]` it returns 0; the
    call sites that can receive an empty string guard it explicitly,
    mirroring the `ValueError` Python raises there). -/
def ofDigitsBE (ds : List Nat) : Nat := ds.foldl (fun a d => 8 * a + d) 0

/-- Octal digit expansion, most significant first, with fuel.  For
    `n ≤ fuel` this is the digit list of `n` (empty for 0). -/
def octAux : Nat → Nat → List Nat
  | 0, _ => []
  | fuel + 1, n => if n = 0 then [] else octAux fuel (n / 8) ++ [n % 8]

/-- `oct(n)[2:]` as a digit list: the base-8 rendering of `n`, most
    significant digit first; `oct(0)[2:]` is the single digit `"0"`. -/
def octRender (n : Nat) : List Nat :=
  if n = 0 then [0] else octAux n n

/-- `s.strip('0')` on a digit string: remove zero digits from BOTH ends
    (Python `str.strip` strips both ends, not only the left). -/
def stripZeros (l : List Nat) : List Nat :=
  ((l.dropWhile (· = 0)).reverse.dropWhile (· = 0)).reverse

/-- `SolresolWord.__init__` on an `int`:
    `[SolfegeSymbol(int(s)) for s in oct(word)[2:].strip('0')]`.
    Note that an all-zero rendering yields the EMPTY word without error. -/
def wordFromInt (m : Nat) : Option (List SolSym) :=
  mapOpt symFromValue (stripZeros (octRender m))

/-- `SolresolWord.value`: `int(''.join(str(ltr.value) for ltr in word), 8)`.
    For an empty word `int('', 8)` raises `ValueError`, hence `none`. -/
def wordValue (w : List SolSym) : Option Nat :=
  match w with
  | [] => none
  | _ => some (ofDigitsBE (w.map symVal))

/-- `oct(num)[2:].ljust(5,'0')`: pad the octal rendering on the RIGHT
    with zero digits up to length 5 (a no-op on longer renderings). -/
def ljust5 (ds : List Nat) : List Nat := ds ++ List.replicate (5 - ds.length) 0

/-- `Solresol.value`:
    `int(''.join(oct(num)[2:].ljust(5,'0') for num in numlist), 8)`.
    Fails (`ValueError`) when some word is empty (its `value` raises) or
    when the phrase is empty (`int('', 8)` raises). -/
def phraseValue (ws : List (List SolSym)) : Option Nat :=
  match mapOpt wordValue ws with
  | none => none
  | some nums =>
    let ds := (nums.map (fun n => ljust5 (octRender n))).flatten
    if ds = [] then none else some (ofDigitsBE ds)

/-- `[sw[i:i+5] for i in range(0,len(sw),5)]`: successive 5-element
    chunks taken from the LEFT; the final chunk may be shorter. -/
def chunks5 : List Nat → List (List Nat)
  | [] => []
  | [a] => [[a]]
  | [a, b] => [[a, b]]
  | [a, b, c] => [[a, b, c]]
  | [a, b, c, d] => [[a, b, c, d]]
  | a :: b :: c :: d :: e :: rest => [a, b, c, d, e] :: chunks5 rest

/-- `Solresol.__init__` on an `int`:
    `sw = oct(text)[2:]; [SolresolWord(int(sw[i:i+5],8)) for i in range(0,len(sw),5)]`. -/
def phraseFromInt (n : Nat) : Option (List (List SolSym)) :=
  mapOpt (fun ch => wordFromInt (ofDigitsBE ch)) (chunks5 (octRender n))

/-! ### Arithmetic facts about the digit-list codec -/

theorem foldlBE (ds : List Nat) (a : Nat) :
    ds.foldl (fun a d => 8 * a + d) a = a * 8 ^ ds.length + Nat.ofDigits 8 ds.reverse := by
  induction ds generalizing a with
  | nil => simp [Nat.ofDigits]
  | cons d t ih =>
    simp only [List.foldl_cons, List.length_cons, List.reverse_cons, ih,
      Nat.ofDigits_append]
    simp only [Nat.ofDigits_cons, Nat.ofDigits_nil, List.length_reverse]
    ring

theorem ofDigitsBE_eq_ofDigits (ds : List Nat) :
    ofDigitsBE ds = Nat.ofDigits 8 ds.reverse := by
  simpa [ofDigitsBE] using foldlBE ds 0

theorem ofDigitsBE_cons_pos (d : Nat) (t : List Nat) (hd : d ≠ 0) :
    0 < ofDigitsBE (d :: t) := by
  have : ofDigitsBE (d :: t) = d * 8 ^ t.length + Nat.ofDigits 8 t.reverse := by
    simpa [ofDigitsBE] using foldlBE t d
  rw [this]
  have h1 : 0 < d := Nat.pos_of_ne_zero hd
  have h2 : 0 < 8 ^ t.length := Nat.pos_pow_of_pos _ (by norm_num)
  exact Nat.lt_of_lt_of_le (Nat.mul_pos h1 h2) (Nat.le_add_right _ _)

theorem octAux_eq (fuel : Nat) : ∀ n ≤ fuel, octAux fuel n = (Nat.digits 8 n).reverse := by
  induction fuel with
  | zero =>
    intro n hn
    interval_cases n
    simp [octAux]
  | succ f ih =>
    intro n hn
    by_cases h : n = 0
    · simp [octAux, h]
    · rw [show octAux (f + 1) n = octAux f (n / 8) ++ [n % 8] by simp [octAux, h]]
      rw [ih (n / 8) ?hfuel]
      · rw [Nat.digits_def' (by norm_num : (1:ℕ) < 8) (Nat.pos_of_ne_zero h)]
        simp
      case hfuel =>
        have : n / 8 < n := Nat.div_lt_self (Nat.pos_of_ne_zero h) (by norm_num)
        omega

theorem octRender_eq (n : Nat) (h : n ≠ 0) :
    octRender n = (Nat.digits 8 n).reverse := by
  simp [octRender, h, octAux_eq n n le_rfl]

/-- Rendering the packed value of a digit list whose leading digit is
    non-zero and whose digits are all valid octal digits recovers the
    digit list. -/
theorem octRender_ofDigitsBE (d : Nat) (t : List Nat) (hd : d ≠ 0)
    (hlt : ∀ x ∈ d :: t, x < 8) : octRender (ofDigitsBE (d :: t)) = d :: t := by
  rw [octRender_eq _ (ofDigitsBE_cons_pos d t hd).ne']
  rw [ofDigitsBE_eq_ofDigits]
  rw [Nat.digits_ofDigits 8 (by norm_num) ((d :: t).reverse)
    (fun l hl => hlt l (List.mem_reverse.mp hl)) ?hlast]
  · exact List.reverse_reverse _
  case hlast =>
    intro hne h0
    have h1 : (d :: t).reverse.getLast? = some d := by
      rw [List.reverse_cons]
      exact List.getLast?_concat _
    rw [List.getLast?_eq_getLast _ hne, h0] at h1
    exact hd (Option.some.inj h1).symm

/-! ### Facts about zero-stripping -/

theorem dropWhile_zero_of (l : List Nat) (h : ∀ d ∈ l, d ≠ 0) :
    l.dropWhile (· = 0) = l := by
  cases l with
  | nil => rfl
  | cons a t =>
    have ha : a ≠ 0 := h a (List.mem_cons_self _ _)
    simp [List.dropWhile_cons, ha]

theorem dropWhile_zero_replicate (k : Nat) (l : List Nat) :
    (List.replicate k 0 ++ l).dropWhile (· = 0) = l.dropWhile (· = 0) := by
  induction k with
  | zero => simp
  | succ m ih => simpa [List.replicate_succ, List.dropWhile_cons] using ih

/-- Stripping zeros from both ends of a zero-free digit list followed by
    zero padding removes exactly the padding. -/
theorem stripZeros_append_replicate (xs : List Nat) (k : Nat)
    (h : ∀ d ∈ xs, d ≠ 0) : stripZeros (xs ++ List.replicate k 0) = xs := by
  unfold stripZeros
  cases xs with
  | nil =>
    simp only [List.nil_append]
    rw [show (List.replicate k (0:Nat)).dropWhile (· = 0) = [] by
      simpa using dropWhile_zero_replicate k []]
    simp
  | cons a t =>
    have ha : a ≠ 0 := h a (List.mem_cons_self _ _)
    rw [List.cons_append, List.dropWhile_cons_of_neg (by simp [ha])]
    rw [show (a :: (t ++ List.replicate k 0)).reverse
        = List.replicate k 0 ++ (t.reverse ++ [a]) by
      simp [List.reverse_cons, List.reverse_append]]
    rw [dropWhile_zero_replicate]
    rw [dropWhile_zero_of _ ?hmem]
    · simp
    case hmem =>
      intro d hd
      rcases List.mem_append.mp hd with h1 | h2
      · exact h d (List.mem_cons_of_mem _ (List.mem_reverse.mp h1))
      · rw [List.mem_singleton.mp h2]
        exact ha

theorem stripZeros_of (l : List Nat) (h : ∀ d ∈ l, d ≠ 0) :
    stripZeros l = l := by
  simpa using stripZeros_append_replicate l 0 h

/-! ### Symbol-level facts -/

theorem symFromValue_symVal (s : SolSym) : symFromValue (symVal s) = some s := by
  cases s <;> rfl

theorem symVal_ne_zero (s : SolSym) : symVal s ≠ 0 := by
  cases s <;> simp [symVal]

theorem symVal_lt_8 (s : SolSym) : symVal s < 8 := by
  cases s <;> simp [symVal]

theorem mapOpt_symVal (w : List SolSym) :
    mapOpt symFromValue (w.map symVal) = some w := by
  induction w with
  | nil => rfl
  | cons s t ih => simp [mapOpt, symFromValue_symVal, ih]

theorem mapOpt_eq_none (f : α → Option β) (l : List α) (a : α)
    (ha : a ∈ l) (hf : f a = none) : mapOpt f l = none := by
  induction l with
  | nil => cases ha
  | cons b t ih =>
    rcases List.mem_cons.mp ha with rfl | hmem
    · simp [mapOpt, hf]
    · cases hfb : f b <;> simp [mapOpt, hfb, ih hmem]

/-! ### Word-level packed round-trip -/

/-- Decoding the packed value of a non-empty word's digit string, right
    padded by any number of zero digits, reproduces the word: the front
    digit is non-zero, so integer rendering loses nothing, and
    `strip('0')` removes exactly the padding. -/
theorem wordFromInt_block (s : SolSym) (w : List SolSym) (k : Nat) :
    wordFromInt (ofDigitsBE (((s :: w).map symVal) ++ List.replicate k 0))
      = some (s :: w) := by
  unfold wordFromInt
  have hform : ((s :: w).map symVal) ++ List.replicate k 0
      = symVal s :: (w.map symVal ++ List.replicate k 0) := by simp
  rw [hform]
  rw [octRender_ofDigitsBE _ _ (symVal_ne_zero s) ?hlt]
  · rw [show symVal s :: (w.map symVal ++ List.replicate k 0)
        = ((s :: w).map symVal) ++ List.replicate k 0 by simp]
    rw [stripZeros_append_replicate _ _ ?hz]
    · exact mapOpt_symVal _
    case hz =>
      intro d hd
      rcases List.mem_map.mp hd with ⟨x, _, rfl⟩
      exact symVal_ne_zero x
  case hlt =>
    intro x hx
    rcases List.mem_cons.mp hx with rfl | hx'
    · exact symVal_lt_8 s
    · rcases List.mem_append.mp hx' with h1 | h2
      · rcases List.mem_map.mp h1 with ⟨y, _, rfl⟩
        exact symVal_lt_8 y
      · rw [List.eq_of_mem_replicate h2]
        norm_num

/-! ### Phrase-level packed round-trip -/

theorem chunks5_flatten : ∀ (blocks : List (List Nat)),
    (∀ b ∈ blocks, b.length = 5) → chunks5 blocks.flatten = blocks
  | [], _ => rfl
  | b :: rest, h => by
    have hb := h b (List.mem_cons_self _ _)
    match b, hb with
    | [a1, a2, a3, a4, a5], _ =>
      have h1 : (([a1, a2, a3, a4, a5] : List Nat) :: rest).flatten
          = a1 :: a2 :: a3 :: a4 :: a5 :: rest.flatten := by simp
      rw [h1]
      have h2 : chunks5 (a1 :: a2 :: a3 :: a4 :: a5 :: rest.flatten)
          = [a1, a2, a3, a4, a5] :: chunks5 rest.flatten := rfl
      rw [h2, chunks5_flatten rest (fun x hx => h x (List.mem_cons_of_mem _ hx))]

theorem mapOpt_wordValue (p : List (List SolSym)) (h : ∀ w ∈ p, w ≠ []) :
    mapOpt wordValue p = some (p.map fun w => ofDigitsBE (w.map symVal)) := by
  induction p with
  | nil => rfl
  | cons w t ih =>
    have hval : wordValue w = some (ofDigitsBE (w.map symVal)) := by
      cases w with
      | nil => exact absurd rfl (h _ (List.mem_cons_self _ _))
      | cons a b => rfl
    simp [mapOpt, hval, ih (fun x hx => h x (List.mem_cons_of_mem _ hx))]

/-- `oct(num)[2:].ljust(5,'0')` on a 1..5 symbol word's packed value is
    the word's digit string right-padded with zeros. -/
theorem ljust5_block (w : List SolSym) (hw : w ≠ []) :
    ljust5 (octRender (ofDigitsBE (w.map symVal)))
      = w.map symVal ++ List.replicate (5 - w.length) 0 := by
  cases w with
  | nil => exact absurd rfl hw
  | cons s t =>
    rw [show (s :: t).map symVal = symVal s :: t.map symVal from rfl]
    rw [octRender_ofDigitsBE _ _ (symVal_ne_zero s) ?hlt]
    · unfold ljust5
      simp
    case hlt =>
      intro x hx
      rcases List.mem_cons.mp hx with rfl | hx'
      · exact symVal_lt_8 s
      · rcases List.mem_map.mp hx' with ⟨y, _, rfl⟩
        exact symVal_lt_8 y

theorem mapOpt_blocks (p : List (List SolSym)) (h : ∀ w ∈ p, w ≠ []) :
    mapOpt (fun ch => wordFromInt (ofDigitsBE ch))
      (p.map (fun w => w.map symVal ++ List.replicate (5 - w.length) 0))
      = some p := by
  induction p with
  | nil => rfl
  | cons w t ih =>
    obtain ⟨s, u, rfl⟩ : ∃ s u, w = s :: u := by
      cases w with
      | nil => exact absurd rfl (h _ (List.mem_cons_self _ _))
      | cons s u => exact ⟨s, u, rfl⟩
    simp only [List.map_cons, mapOpt]
    have hwb := wordFromInt_block s u (5 - (s :: u).length)
    simp only [List.map_cons] at hwb
    rw [hwb, ih (fun x hx => h x (List.mem_cons_of_mem _ hx))]

/-- C1 (amended): phrase packed round-trip — for every NON-empty Phrase
    all of whose words have between 1 and 5 symbols, decoding the packed
    integer produced by the phrase-level encode (`Solresol.value`) via
    the packed-integer Phrase constructor yields a Phrase with the same
    word-by-word symbol sequences.  (The original claim also covered the
    empty phrase, where the encode raises instead of producing an
    integer.) -/
theorem phrase_packed_roundtrip_amended (p : List (List SolSym)) (hp : p ≠ [])
    (hw : ∀ w ∈ p, w ≠ [] ∧ w.length ≤ 5) :
    ∃ n, phraseValue p = some n ∧ phraseFromInt n = some p := by
  have hne : ∀ w ∈ p, w ≠ [] := fun w hwp => (hw w hwp).1
  have hblocks :
      (p.map fun w => ofDigitsBE (w.map symVal)).map (fun n => ljust5 (octRender n))
        = p.map (fun w => w.map symVal ++ List.replicate (5 - w.length) 0) := by
    rw [List.map_map]
    refine List.map_congr_left (fun w hwp => ?_)
    simpa [Function.comp] using ljust5_block w (hne w hwp)
  have hlen5 : ∀ b ∈ p.map (fun w => w.map symVal ++ List.replicate (5 - w.length) 0),
      b.length = 5 := by
    intro b hb
    rcases List.mem_map.mp hb with ⟨w, hwp, rfl⟩
    have h1 : 0 < w.length := List.length_pos.mpr (hne w hwp)
    have h2 := (hw w hwp).2
    simp only [List.length_append, List.length_map, List.length_replicate]
    omega
  have hlt8 : ∀ x ∈ (p.map (fun w => w.map symVal ++ List.replicate (5 - w.length) 0)).flatten,
      x < 8 := by
    intro x hx
    rcases List.mem_flatten.mp hx with ⟨b, hb, hxb⟩
    rcases List.mem_map.mp hb with ⟨w, _, rfl⟩
    rcases List.mem_append.mp hxb with h1 | h2
    · rcases List.mem_map.mp h1 with ⟨y, _, rfl⟩
      exact symVal_lt_8 y
    · rw [List.eq_of_mem_replicate h2]
      norm_num
  obtain ⟨w0, p', rfl⟩ : ∃ w0 p', p = w0 :: p' := by
    cases p with
    | nil => exact absurd rfl hp
    | cons a b => exact ⟨a, b, rfl⟩
  obtain ⟨s, t, rfl⟩ : ∃ s t, w0 = s :: t := by
    cases w0 with
    | nil => exact absurd rfl (hne _ (List.mem_cons_self _ _))
    | cons s t => exact ⟨s, t, rfl⟩
  obtain ⟨R, hR⟩ : ∃ R,
      (((s :: t) :: p').map
        (fun w => w.map symVal ++ List.replicate (5 - w.length) 0)).flatten
      = symVal s :: R := by
    simp only [List.map_cons, List.flatten_cons, List.cons_append]
    exact ⟨_, rfl⟩
  refine ⟨ofDigitsBE ((((s :: t) :: p').map
    (fun w => w.map symVal ++ List.replicate (5 - w.length) 0)).flatten), ?_, ?_⟩
  · unfold phraseValue
    rw [mapOpt_wordValue _ hne]
    simp only [hblocks, hR]
    simp
  · unfold phraseFromInt
    have hoct : octRender (ofDigitsBE ((((s :: t) :: p').map
        (fun w => w.map symVal ++ List.replicate (5 - w.length) 0)).flatten))
        = (((s :: t) :: p').map
          (fun w => w.map symVal ++ List.replicate (5 - w.length) 0)).flatten := by
      rw [hR]
      exact octRender_ofDigitsBE _ _ (symVal_ne_zero s) (hR ▸ hlt8)
    rw [hoct, chunks5_flatten _ hlen5]
    exact mapOpt_blocks _ hne

/-- C1, counterexample: the empty phrase (all of whose words vacuously
    have at most 5 symbols) produces no packed integer at all —
    `Solresol.value` evaluates `int('', 8)`, which raises — so the
    round-trip as stated fails at `p = []`. -/
theorem phrase_packed_roundtrip_cex :
    ¬ ∃ n, phraseValue ([] : List (List SolSym)) = some n
        ∧ phraseFromInt n = some [] := by
  rintro ⟨n, h, -⟩
  have hval : phraseValue ([] : List (List SolSym)) = none := by decide
  rw [hval] at h
  exact Option.noConfusion h

/-- C1 witness: the amended round-trip at the concrete phrase
    `[[MI], [FA, SOL]]`. -/
theorem phrase_packed_roundtrip_amended_witness :
    ∃ n, phraseValue [[MI], [FA, SOL]] = some n
      ∧ phraseFromInt n = some [[MI], [FA, SOL]] :=
  phrase_packed_roundtrip_amended [[MI], [FA, SOL]] (by decide) (by decide)

/-- C2: `Solresol.value` on a phrase containing a 6-symbol word raises
    nothing at all — no `WordTooLongForPackingError` exists in the code —
    and instead returns the misaligned integer 0o111111 = 37449, which
    decodes to a corrupted two-word phrase. -/
theorem phrase_overlong_word_silent :
    phraseValue [[DO, DO, DO, DO, DO, DO]] = some 37449
      ∧ phraseFromInt 37449 = some [[DO, DO, DO, DO, DO], [DO]] := by
  decide

/-! ### Octal string rendering and the spec's decode, for C3/C4 -/

/-- Zero-pad a digit string on the left to length `k`. -/
def padLeftZeros (k : Nat) (ds : List Nat) : List Nat :=
  List.replicate (k - ds.length) 0 ++ ds

/-- Render a digit list as the corresponding digit characters. -/
def octLit (ds : List Nat) : List Char := ds.map (fun d => Char.ofNat (48 + d))

/-- Zero-pad a digit string on the left to the next multiple of 5. -/
def padToMult5 (ds : List Nat) : List Nat :=
  List.replicate ((5 - ds.length % 5) % 5) 0 ++ ds

/-- The phrase-level packed DECODE as the spec's words describe it
    (named for comparison with `phraseFromInt`, which follows the code):
    render the integer in base 8, zero-pad on the left to the next
    multiple of 5, split into 5-digit chunks from the right (after
    padding this coincides with splitting from the left), and decode
    each chunk independently via the packed-integer word path. -/
def specPhraseFromInt (n : Nat) : Option (List (List SolSym)) :=
  mapOpt (fun ch => wordFromInt (ofDigitsBE ch)) (chunks5 (padToMult5 (octRender n)))

/-- C3, counterexample: the phrase `[[1],[7,7]]` does encode to an
    integer, but its base-8 rendering zero-padded to 10 digits is NOT
    `"0000100077"` — the code right-pads each word (`ljust`), it does
    not left-pad. -/
theorem phrase_scenario3_cex :
    phraseValue [[DO], [SI, SI]] = some 134249984
      ∧ String.mk (octLit (padLeftZeros 10 (octRender 134249984))) ≠ "0000100077" := by
  decide

/-- C3 (amended): the phrase `[[1],[7,7]]` encodes to the packed integer
    134249984, whose base-8 rendering zero-padded to 10 digits is
    `"1000077000"` (each word's packed value RIGHT-padded with zero
    digits to 5 octal digits, concatenated in word order), and decoding
    that integer reproduces the two words unchanged. -/
theorem phrase_scenario3_amended :
    phraseValue [[DO], [SI, SI]] = some 134249984
      ∧ String.mk (octLit (padLeftZeros 10 (octRender 134249984))) = "1000077000"
      ∧ phraseFromInt 134249984 = some [[DO], [SI, SI]] := by
  decide

/-- C4, counterexample: at `n = 37449` (octal `111111`, length 6, not a
    multiple of 5) the code decodes the chunks `11111|1` taken from the
    left, while the spec's left-padded right-aligned chunking decodes
    `00001|11111`; the results differ. -/
theorem phrase_decode_chunking_cex :
    phraseFromInt 37449 = some [[DO, DO, DO, DO, DO], [DO]]
      ∧ specPhraseFromInt 37449 = some [[DO], [DO, DO, DO, DO, DO]]
      ∧ phraseFromInt 37449 ≠ specPhraseFromInt 37449 := by
  decide

/-- C4 (amended): phrase decode splits the octal rendering into 5-digit
    chunks from the LEFT with no padding (the last chunk may be
    shorter); for every `n` whose octal rendering has length a multiple
    of 5 this coincides with the spec's left-padded right-aligned
    chunking. -/
theorem phrase_decode_agrees_on_aligned (n : Nat)
    (h : (octRender n).length % 5 = 0) :
    phraseFromInt n = specPhraseFromInt n := by
  unfold specPhraseFromInt phraseFromInt padToMult5
  rw [h]
  simp

/-- C4 witness: at `n = 4681` (octal `11111`, length 5) the two
    decodings agree. -/
theorem phrase_decode_agrees_on_aligned_witness :
    (octRender 4681).length % 5 = 0
      ∧ phraseFromInt 4681 = specPhraseFromInt 4681 :=
  ⟨by decide, phrase_decode_agrees_on_aligned 4681 (by decide)⟩

/-- C5: word packed round-trip — for every non-empty word `w`, of any
    length, constructing a word from the integer `w.value` reproduces
    exactly the same symbol sequence. -/
theorem word_packed_roundtrip (w : List SolSym) (hw : w ≠ []) :
    ∃ n, wordValue w = some n ∧ wordFromInt n = some w := by
  cases w with
  | nil => exact absurd rfl hw
  | cons s t =>
    refine ⟨ofDigitsBE ((s :: t).map symVal), rfl, ?_⟩
    simpa using wordFromInt_block s t 0

/-- C5 witness: the round-trip at the concrete word `[DO, RE, MI]`. -/
theorem word_packed_roundtrip_witness :
    ∃ n, wordValue [DO, RE, MI] = some n ∧ wordFromInt n = some [DO, RE, MI] :=
  word_packed_roundtrip [DO, RE, MI] (by decide)

/-- C6, counterexample: `oct(8)[2:] = "10"` still contains a 0 digit
    after stripping LEADING zeros, yet word construction from 8 succeeds
    (Python `strip('0')` also removes the TRAILING zero), producing
    `[DO]` instead of failing. -/
theorem word_packed_zero_digit_cex :
    0 ∈ (octRender 8).dropWhile (· = 0) ∧ wordFromInt 8 = some [DO] := by
  decide

/-- C6 (amended): word construction from a packed integer fails for
    every integer whose base-8 rendering still contains a 0 digit after
    stripping zero digits from BOTH ends (a digit greater than 7 can
    never occur in a base-8 rendering). -/
theorem word_packed_zero_digit_fails (n : Nat)
    (h : 0 ∈ stripZeros (octRender n)) : wordFromInt n = none :=
  mapOpt_eq_none _ _ 0 h rfl

/-- C6 witness: `65 = 0o101` has an interior zero digit and fails. -/
theorem word_packed_zero_digit_fails_witness :
    0 ∈ stripZeros (octRender 65) ∧ wordFromInt 65 = none :=
  ⟨by decide, word_packed_zero_digit_fails 65 (by decide)⟩

/-! ### Numeric word syntax, for C7 -/

/-- `int(c)` on a single character: its decimal digit value (a
    non-digit raises `ValueError`). -/
def decDigit (c : Char) : Option Nat :=
  if '0' ≤ c ∧ c ≤ '9' then some (c.toNat - 48) else none

/-- `word.strip('0')` on characters: remove '0' from both ends. -/
def stripCh0 (l : List Char) : List Char :=
  ((l.dropWhile (· = '0')).reverse.dropWhile (· = '0')).reverse

/-- `SolresolWord.__init__` with `syntax='num'`:
    `[SolfegeSymbol(int(s)) for s in word.strip('0')]`. -/
def numParse (cs : List Char) : Option (List SolSym) :=
  mapOpt (fun c => (decDigit c).bind symFromValue) (stripCh0 cs)

/-- C7: parsing the all-zero numeric string `"000"` raises nothing — it
    silently constructs a word with an EMPTY symbol sequence, violating
    the invariant that every successfully constructed word has at least
    one symbol. -/
theorem numeric_all_zero_empty_word :
    numParse ['0', '0', '0'] = some [] ∧ numParse ['0', '0', '0'] ≠ none := by
  decide

/-! ### Full-text word syntax -/

/-- The canonical lowercase spelling of a symbol: `smb.name` is the
    canonical enum member name (aliases resolve to it), which `fulltext`
    lowercases. -/
def spell : SolSym → List Char
  | DO => ['d', 'o'] | RE => ['r', 'e'] | MI => ['m', 'i'] | FA => ['f', 'a']
  | SOL => ['s', 'o', 'l'] | LA => ['l', 'a'] | SI => ['s', 'i']

/-- `SolresolWord.fulltext`: `''.join(smb.name for smb in word).lower()`
    (lowercasing the joined canonical names equals joining the lowercase
    spellings). -/
def fulltextChars (w : List SolSym) : List Char := (w.map spell).flatten

/-- Does the text start with a character lowercasing to 'a'?  (the
    `startswith('sola')` guard inspects the 4th character.) -/
def startsA : List Char → Bool
  | c :: _ => lc c = 'a'
  | [] => false

/-- `SolresolWord.__init__` with `syntax='full'`: the left-to-right scan.
    If `word.lower()` starts with `'sol'` but not with `'sola'`, consume
    3 characters as SOL; otherwise look up the (case-preserved) slice
    `word[:2]` — a single character at the very end — as an enum name,
    failing (`KeyError`) when it names nothing. -/
def fullParse : List Char → Option (List SolSym)
  | [] => some []
  | [c] => (look1 c).map ([·])
  | [c1, c2] => (look2 c1 c2).map ([·])
  | c1 :: c2 :: c3 :: rest =>
    if lc c1 = 's' ∧ lc c2 = 'o' ∧ lc c3 = 'l' ∧ startsA rest = false then
      (fullParse rest).map (SOL :: ·)
    else
      match look2 c1 c2 with
      | some s => (fullParse (c3 :: rest)).map (s :: ·)
      | none => none


/-- Consuming one spelled symbol from the front of the scan: the scanner
    peels `spell s` and continues, provided a SOL spelling is not
    followed by a character lowercasing to 'a' (the `'sola'` guard). -/
theorem fullParse_spell_append (s : SolSym) (rest : List Char)
    (h : s = SOL → startsA rest = false) :
    fullParse (spell s ++ rest) = (fullParse rest).map (s :: ·) := by
  cases s with
  | SOL =>
    have hs := h rfl
    cases rest with
    | nil => decide
    | cons c cs =>
      simp +decide [spell, fullParse, hs]
  | DO => cases rest with
    | nil => decide
    | cons c cs =>
      simp +decide [spell, fullParse, show look2 'd' 'o' = some DO from by decide]
  | RE => cases rest with
    | nil => decide
    | cons c cs =>
      simp +decide [spell, fullParse, show look2 'r' 'e' = some RE from by decide]
  | MI => cases rest with
    | nil => decide
    | cons c cs =>
      simp +decide [spell, fullParse, show look2 'm' 'i' = some MI from by decide]
  | FA => cases rest with
    | nil => decide
    | cons c cs =>
      simp +decide [spell, fullParse, show look2 'f' 'a' = some FA from by decide]
  | LA => cases rest with
    | nil => decide
    | cons c cs =>
      simp +decide [spell, fullParse, show look2 'l' 'a' = some LA from by decide]
  | SI => cases rest with
    | nil => decide
    | cons c cs =>
      simp +decide [spell, fullParse, show look2 's' 'i' = some SI from by decide]

/-- A spelled symbol never begins with a character lowercasing to 'a'. -/
theorem startsA_spell_append (u : SolSym) (x : List Char) :
    startsA (spell u ++ x) = false := by
  cases u <;> simp +decide [spell, startsA]

/-- The full text of any word never begins with 'a'. -/
theorem startsA_fulltext_append (t : List SolSym) (x : List Char)
    (ht : t ≠ []) : startsA (fulltextChars t ++ x) = false := by
  cases t with
  | nil => exact absurd rfl ht
  | cons u t' =>
    rw [show fulltextChars (u :: t') ++ x = spell u ++ (fulltextChars t' ++ x) by
      simp [fulltextChars]]
    exact startsA_spell_append u _

/-- Parsing the full text of any word succeeds and reproduces the word
    (no length bound is needed). -/
theorem fullParse_fulltext (w : List SolSym) :
    fullParse (fulltextChars w) = some w := by
  induction w with
  | nil => rfl
  | cons s t ih =>
    rw [show fulltextChars (s :: t) = spell s ++ fulltextChars t by simp [fulltextChars]]
    rw [fullParse_spell_append s _ ?hguard, ih]
    · rfl
    case hguard =>
      intro _
      cases t with
      | nil => rfl
      | cons u t' =>
        simpa using startsA_fulltext_append (u :: t') [] (by simp)

/-- C9: full-text word round-trip — for every word of length at most 5,
    parsing `w.fulltext` in full syntax yields the same symbol sequence
    (including a SOL immediately followed by LA). -/
theorem fulltext_roundtrip (w : List SolSym) (_hlen : w.length ≤ 5) :
    fullParse (fulltextChars w) = some w :=
  fullParse_fulltext w

/-- C9 witness: the round-trip at `[SOL, LA]` (full text `"solla"`),
    where the 5th symbol is immediately followed by the 6th. -/
theorem fulltext_roundtrip_witness :
    fullParse (fulltextChars [SOL, LA]) = some [SOL, LA] :=
  fulltext_roundtrip [SOL, LA] (by decide)

/-- C8, counterexample: the input `"d"` leaves a single unconsumed
    character at the end of the scan, yet parsing SUCCEEDS — `word[:2]`
    is the 1-character slice `"d"`, a registered single-letter alias of
    DO — instead of failing with `MalformedWordError`. -/
theorem full_trailing_partial_cex : fullParse ['d'] = some [DO] := by
  decide

/-- At the end of the scan a trailing single character `c` is looked up
    as an enum alias exactly like a 2-character slice: after any word's
    full text, parsing fails for `c` if and only if `c` is not a
    registered single-character alias, and otherwise appends that
    alias's symbol (the hypothesis excludes `c` lowercasing to 'a'
    directly after a word-final SOL, where the `'sola'` rule alters the
    parse). -/
theorem full_trailing_char (w : List SolSym) (c : Char)
    (h : w.getLast? = some SOL → lc c ≠ 'a') :
    fullParse (fulltextChars w ++ [c]) = (lookupFull [c]).map (fun s => w ++ [s]) := by
  induction w with
  | nil =>
    simp only [fulltextChars, List.map_nil, List.flatten_nil, List.nil_append]
    rw [show fullParse [c] = (look1 c).map ([·]) from rfl]
    rfl
  | cons s t ih =>
    rw [show fulltextChars (s :: t) ++ [c] = spell s ++ (fulltextChars t ++ [c]) by
      simp [fulltextChars]]
    rw [fullParse_spell_append s _ ?hguard]
    · rw [ih ?hlast]
      · cases lookupFull [c] <;> rfl
      case hlast =>
        intro hl
        cases t with
        | nil => exact absurd hl (by simp)
        | cons u t' =>
          exact h (by rw [List.getLast?_cons_cons]; exact hl)
    case hguard =>
      intro hsol
      cases t with
      | nil =>
        subst hsol
        have hc : lc c ≠ 'a' := h (by rfl)
        simp only [fulltextChars, List.map_nil, List.flatten_nil, List.nil_append,
          startsA]
        simpa using hc
      | cons u t' =>
        exact startsA_fulltext_append (u :: t') [c] (by simp)

/-- The failure condition of the full-syntax scan, as a predicate on
    an ARBITRARY input string: the left-to-right scan eventually
    consumes a slice matching no registered alias — a case-preserved
    2-character slice `word[:2]` (mid-scan, or as the whole remainder)
    naming no alias, or the single trailing character when it is not a
    1-character alias.  The recursive constructors consume one `sol`
    group or one resolved 2-character alias and continue. -/
inductive ScanFails : List Char → Prop
  | bad_one (c : Char) : look1 c = none → ScanFails [c]
  | bad_two (c1 c2 : Char) : look2 c1 c2 = none → ScanFails [c1, c2]
  | bad_slice (c1 c2 c3 : Char) (rest : List Char) :
      ¬(lc c1 = 's' ∧ lc c2 = 'o' ∧ lc c3 = 'l' ∧ startsA rest = false) →
      look2 c1 c2 = none → ScanFails (c1 :: c2 :: c3 :: rest)
  | after_sol (c1 c2 c3 : Char) (rest : List Char) :
      lc c1 = 's' → lc c2 = 'o' → lc c3 = 'l' → startsA rest = false →
      ScanFails rest → ScanFails (c1 :: c2 :: c3 :: rest)
  | after_tok (c1 c2 c3 : Char) (rest : List Char) (s : SolSym) :
      ¬(lc c1 = 's' ∧ lc c2 = 'o' ∧ lc c3 = 'l' ∧ startsA rest = false) →
      look2 c1 c2 = some s → ScanFails (c3 :: rest) → ScanFails (c1 :: c2 :: c3 :: rest)

/-- Parsing an arbitrary string in full syntax fails exactly when the
    scan consumes a slice matching no registered alias. -/
theorem full_parse_none_iff : ∀ cs : List Char, fullParse cs = none ↔ ScanFails cs
  | [] => by
    constructor
    · intro h
      exact absurd h (by decide)
    · intro h
      cases h
  | [c] => by
    simp only [fullParse]
    constructor
    · intro h
      cases hl : look1 c with
      | none => exact ScanFails.bad_one c hl
      | some s => rw [hl] at h; exact Option.noConfusion h
    · intro h
      cases h with
      | bad_one _ hl => rw [hl]; rfl
  | [c1, c2] => by
    simp only [fullParse]
    constructor
    · intro h
      cases hl : look2 c1 c2 with
      | none => exact ScanFails.bad_two c1 c2 hl
      | some s => rw [hl] at h; exact Option.noConfusion h
    · intro h
      cases h with
      | bad_two _ _ hl => rw [hl]; rfl
  | c1 :: c2 :: c3 :: rest => by
    simp only [fullParse]
    by_cases hg : lc c1 = 's' ∧ lc c2 = 'o' ∧ lc c3 = 'l' ∧ startsA rest = false
    · rw [if_pos hg]
      constructor
      · intro h
        have hrest : fullParse rest = none := by
          cases hf : fullParse rest with
          | none => rfl
          | some w => rw [hf] at h; exact Option.noConfusion h
        exact ScanFails.after_sol c1 c2 c3 rest hg.1 hg.2.1 hg.2.2.1 hg.2.2.2
          ((full_parse_none_iff rest).mp hrest)
      · intro h
        cases h with
        | after_sol _ _ _ _ _ _ _ _ hsf =>
          rw [(full_parse_none_iff rest).mpr hsf]
          rfl
        | bad_slice _ _ _ _ hng _ => exact absurd hg hng
        | after_tok _ _ _ _ _ hng _ _ => exact absurd hg hng
    · rw [if_neg hg]
      cases hl : look2 c1 c2 with
      | none =>
        constructor
        · intro _
          exact ScanFails.bad_slice c1 c2 c3 rest hg hl
        · intro _
          rfl
      | some s =>
        constructor
        · intro h
          have hrest : fullParse (c3 :: rest) = none := by
            cases hf : fullParse (c3 :: rest) with
            | none => rfl
            | some w => rw [hf] at h; exact Option.noConfusion h
          exact ScanFails.after_tok c1 c2 c3 rest s hg hl
            ((full_parse_none_iff (c3 :: rest)).mp hrest)
        · intro h
          cases h with
          | after_sol _ _ _ _ h1 h2 h3 h4 _ => exact absurd ⟨h1, h2, h3, h4⟩ hg
          | bad_slice _ _ _ _ _ hl2 => rw [hl] at hl2; exact Option.noConfusion hl2
          | after_tok _ _ _ _ _ _ _ hsf =>
            rw [(full_parse_none_iff (c3 :: rest)).mpr hsf]
            rfl

/-- C8 (amended): parsing a word in full syntax fails exactly when the
    left-to-right scan consumes a slice matching no registered alias —
    a case-preserved 2-character slice (mid-scan or as the whole
    remainder) naming no alias, or a single trailing character that is
    not a registered 1-letter alias.  Fewer than 2 remaining characters
    do not by themselves cause failure: the trailing 1-character slice
    `word[:2]` is looked up like any other, and when it names an alias
    the parse succeeds and appends that symbol (the proviso excludes a
    character lowercasing to 'a' directly after a word-final SOL, where
    the `'sola'` guard alters the parse). -/
theorem full_malformed_characterization :
    (∀ cs : List Char, fullParse cs = none ↔ ScanFails cs)
      ∧ ∀ (w : List SolSym) (c : Char), (w.getLast? = some SOL → lc c ≠ 'a') →
          fullParse (fulltextChars w ++ [c]) = (lookupFull [c]).map (fun s => w ++ [s]) :=
  ⟨full_parse_none_iff, full_trailing_char⟩

/-- C8 witness: the input `"dxdo"` fails on the mid-scan 2-character
    slice `"dx"` (no such alias) and the theorem converts that computed
    failure into the scan-failure characterization; after the word
    `[DO]` the trailing registered alias `'d'` parses, giving
    `"dod"` = `[DO, DO]`. -/
theorem full_malformed_characterization_witness :
    ScanFails ['d', 'x', 'd', 'o']
      ∧ fullParse (fulltextChars [DO] ++ ['d'])
          = (lookupFull ['d']).map (fun s => [DO] ++ [s]) :=
  ⟨(full_malformed_characterization.1 ['d', 'x', 'd', 'o']).mp (by decide),
   full_malformed_characterization.2 [DO] 'd' (by decide)⟩

/-! ### Phonetic (ses) word syntax -/

/-- `SolfegeSymbol.sescons`: `'pkmfslt'[value-1]`. -/
def sescons : SolSym → Char
  | DO => 'p' | RE => 'k' | MI => 'm' | FA => 'f' | SOL => 's' | LA => 'l' | SI => 't'

/-- `SolfegeSymbol.sesvowel`: `list('oeiau')+['ai','au']`, indexed by
    `value-1` (the 6th and 7th vowels are two-letter digraphs). -/
def sesvowel : SolSym → List Char
  | DO => ['o'] | RE => ['e'] | MI => ['i'] | FA => ['a'] | SOL => ['u']
  | LA => ['a', 'i'] | SI => ['a', 'u']

/-- The alternating serialization
    `''.join(ltr.sescons if ix%2==0 else ltr.sesvowel ...)`; the flag is
    true at even positions. -/
def sesInter : Bool → List SolSym → List Char
  | _, [] => []
  | true, s :: r => sescons s :: sesInter false r
  | false, s :: r => sesvowel s ++ sesInter true r

/-- `SolresolWord.ses`: a single-symbol word is its bare vowel,
    otherwise consonants at even and vowels at odd positions. -/
def sesStr : List SolSym → List Char
  | [s] => sesvowel s
  | w => sesInter true w

/-- `str.replace('ai','l')`: replace all non-overlapping occurrences,
    left to right. -/
def replaceAI : List Char → List Char
  | [] => []
  | [c] => [c]
  | c1 :: c2 :: rest =>
    if c1 = 'a' ∧ c2 = 'i' then 'l' :: replaceAI rest
    else c1 :: replaceAI (c2 :: rest)

/-- `str.replace('au','t')`. -/
def replaceAU : List Char → List Char
  | [] => []
  | [c] => [c]
  | c1 :: c2 :: rest =>
    if c1 = 'a' ∧ c2 = 'u' then 't' :: replaceAU rest
    else c1 :: replaceAU (c2 :: rest)

/-- `SolresolWord.__init__` with `syntax='ses'`:
    `[SolfegeSymbol[s] for s in word.replace('ai','l').replace('au','t')]`. -/
def sesParse (cs : List Char) : Option (List SolSym) :=
  mapOpt look1 (replaceAU (replaceAI cs))

/-- The vowel forms after the `'ai' -> 'l'` rewriting pass. -/
def sesvowel1 : SolSym → List Char
  | DO => ['o'] | RE => ['e'] | MI => ['i'] | FA => ['a'] | SOL => ['u']
  | LA => ['l'] | SI => ['a', 'u']

/-- The single vowel placeholders after both rewriting passes. -/
def sesvowel2 : SolSym → Char
  | DO => 'o' | RE => 'e' | MI => 'i' | FA => 'a' | SOL => 'u'
  | LA => 'l' | SI => 't'

/-- The alternating serialization with `'ai'` already rewritten. -/
def sesInter1 : Bool → List SolSym → List Char
  | _, [] => []
  | true, s :: r => sescons s :: sesInter1 false r
  | false, s :: r => sesvowel1 s ++ sesInter1 true r

/-- The alternating serialization with both digraphs rewritten: one
    character per symbol. -/
def sesInter2 : Bool → List SolSym → List Char
  | _, [] => []
  | true, s :: r => sescons s :: sesInter2 false r
  | false, s :: r => sesvowel2 s :: sesInter2 true r

theorem replaceAI_cons_ne (c : Char) (l : List Char) (h : c ≠ 'a') :
    replaceAI (c :: l) = c :: replaceAI l := by
  cases l <;> simp [replaceAI, h]

theorem replaceAI_a_cons (c2 : Char) (l : List Char) (h : c2 ≠ 'i') :
    replaceAI ('a' :: c2 :: l) = 'a' :: replaceAI (c2 :: l) := by
  simp [replaceAI, h]

theorem replaceAU_cons_ne (c : Char) (l : List Char) (h : c ≠ 'a') :
    replaceAU (c :: l) = c :: replaceAU l := by
  cases l <;> simp [replaceAU, h]

theorem replaceAU_a_cons (c2 : Char) (l : List Char) (h : c2 ≠ 'u') :
    replaceAU ('a' :: c2 :: l) = 'a' :: replaceAU (c2 :: l) := by
  simp [replaceAU, h]

theorem replaceAI_sesInter (w : List SolSym) :
    ∀ b, replaceAI (sesInter b w) = sesInter1 b w := by
  induction w with
  | nil => intro b; cases b <;> rfl
  | cons s r ih =>
    intro b
    cases b with
    | true =>
      rw [show sesInter true (s :: r) = sescons s :: sesInter false r from rfl]
      rw [replaceAI_cons_ne _ _ (by cases s <;> decide), ih false]
      rfl
    | false =>
      rw [show sesInter false (s :: r) = sesvowel s ++ sesInter true r from rfl]
      cases s with
      | LA =>
        rw [show sesvowel LA ++ sesInter true r = 'a' :: 'i' :: sesInter true r from rfl]
        rw [show replaceAI ('a' :: 'i' :: sesInter true r)
            = 'l' :: replaceAI (sesInter true r) by simp [replaceAI]]
        rw [ih true]
        rfl
      | SI =>
        rw [show sesvowel SI ++ sesInter true r = 'a' :: 'u' :: sesInter true r from rfl]
        rw [replaceAI_a_cons _ _ (by decide), replaceAI_cons_ne _ _ (by decide), ih true]
        rfl
      | FA =>
        rw [show sesvowel FA ++ sesInter true r = 'a' :: sesInter true r from rfl]
        rw [show replaceAI ('a' :: sesInter true r) = 'a' :: replaceAI (sesInter true r) by
          cases r with
          | nil => rfl
          | cons u r' =>
            rw [show sesInter true (u :: r') = sescons u :: sesInter false r' from rfl]
            exact replaceAI_a_cons _ _ (by cases u <;> decide)]
        rw [ih true]
        rfl
      | DO =>
        rw [show sesvowel DO ++ sesInter true r = 'o' :: sesInter true r from rfl]
        rw [replaceAI_cons_ne _ _ (by decide), ih true]
        rfl
      | RE =>
        rw [show sesvowel RE ++ sesInter true r = 'e' :: sesInter true r from rfl]
        rw [replaceAI_cons_ne _ _ (by decide), ih true]
        rfl
      | MI =>
        rw [show sesvowel MI ++ sesInter true r = 'i' :: sesInter true r from rfl]
        rw [replaceAI_cons_ne _ _ (by decide), ih true]
        rfl
      | SOL =>
        rw [show sesvowel SOL ++ sesInter true r = 'u' :: sesInter true r from rfl]
        rw [replaceAI_cons_ne _ _ (by decide), ih true]
        rfl

theorem replaceAU_sesInter1 (w : List SolSym) :
    ∀ b, replaceAU (sesInter1 b w) = sesInter2 b w := by
  induction w with
  | nil => intro b; cases b <;> rfl
  | cons s r ih =>
    intro b
    cases b with
    | true =>
      rw [show sesInter1 true (s :: r) = sescons s :: sesInter1 false r from rfl]
      rw [replaceAU_cons_ne _ _ (by cases s <;> decide), ih false]
      rfl
    | false =>
      rw [show sesInter1 false (s :: r) = sesvowel1 s ++ sesInter1 true r from rfl]
      cases s with
      | SI =>
        rw [show sesvowel1 SI ++ sesInter1 true r = 'a' :: 'u' :: sesInter1 true r from rfl]
        rw [show replaceAU ('a' :: 'u' :: sesInter1 true r)
            = 't' :: replaceAU (sesInter1 true r) by simp [replaceAU]]
        rw [ih true]
        rfl
      | FA =>
        rw [show sesvowel1 FA ++ sesInter1 true r = 'a' :: sesInter1 true r from rfl]
        rw [show replaceAU ('a' :: sesInter1 true r) = 'a' :: replaceAU (sesInter1 true r) by
          cases r with
          | nil => rfl
          | cons u r' =>
            rw [show sesInter1 true (u :: r') = sescons u :: sesInter1 false r' from rfl]
            exact replaceAU_a_cons _ _ (by cases u <;> decide)]
        rw [ih true]
        rfl
      | DO =>
        rw [show sesvowel1 DO ++ sesInter1 true r = 'o' :: sesInter1 true r from rfl]
        rw [replaceAU_cons_ne _ _ (by decide), ih true]
        rfl
      | RE =>
        rw [show sesvowel1 RE ++ sesInter1 true r = 'e' :: sesInter1 true r from rfl]
        rw [replaceAU_cons_ne _ _ (by decide), ih true]
        rfl
      | MI =>
        rw [show sesvowel1 MI ++ sesInter1 true r = 'i' :: sesInter1 true r from rfl]
        rw [replaceAU_cons_ne _ _ (by decide), ih true]
        rfl
      | SOL =>
        rw [show sesvowel1 SOL ++ sesInter1 true r = 'u' :: sesInter1 true r from rfl]
        rw [replaceAU_cons_ne _ _ (by decide), ih true]
        rfl
      | LA =>
        rw [show sesvowel1 LA ++ sesInter1 true r = 'l' :: sesInter1 true r from rfl]
        rw [replaceAU_cons_ne _ _ (by decide), ih true]
        rfl

theorem mapOpt_sesInter2 (w : List SolSym) :
    ∀ b, mapOpt look1 (sesInter2 b w) = some w := by
  induction w with
  | nil => intro b; cases b <;> rfl
  | cons s r ih =>
    intro b
    cases b with
    | true =>
      have h1 : look1 (sescons s) = some s := by cases s <;> decide
      simp [sesInter2, mapOpt, h1, ih false]
    | false =>
      have h1 : look1 (sesvowel2 s) = some s := by cases s <;> decide
      simp [sesInter2, mapOpt, h1, ih true]

/-- C10: phonetic (ses) round-trip — for every non-empty word, parsing
    `w.ses` in 'ses' syntax (rewrite the digraphs `'ai'`/`'au'` to the
    placeholders `'l'`/`'t'`, then resolve each character by alias
    lookup) reproduces the symbol sequence, both for single-symbol words
    (serialized as the bare vowel) and multi-symbol words (consonant at
    even, vowel at odd positions). -/
theorem ses_roundtrip (w : List SolSym) (hw : w ≠ []) :
    sesParse (sesStr w) = some w := by
  match w, hw with
  | [], h => exact absurd rfl h
  | [s], _ => cases s <;> decide
  | s1 :: s2 :: r, _ =>
    rw [show sesStr (s1 :: s2 :: r) = sesInter true (s1 :: s2 :: r) from rfl]
    unfold sesParse
    rw [replaceAI_sesInter _ true, replaceAU_sesInter1 _ true, mapOpt_sesInter2 _ true]

/-- C10 witness: the round-trip at `[DO, LA]` (ses form `"pai"`). -/
theorem ses_roundtrip_witness : sesParse (sesStr [DO, LA]) = some [DO, LA] :=
  ses_roundtrip [DO, LA] (by decide)

